/-
  Verification of the SearchServer repository (an in-memory document
  indexing and TF-IDF ranking engine written in C++).

  Shallow embedding conventions:
  * C++ std::string is modelled by Lean String; all string operations are
    written over the underlying character list so that the kernel can
    evaluate them.
  * C++ double is modelled by the rationals.  The one transcendental
    operation, log, is kept abstract: every ranking definition is
    parametrised by a function rlog : Rat -> Rat standing for the C
    library log.  Theorems quantify over rlog.
  * std::map and std::set are modelled by key-sorted association lists /
    sorted duplicate-free lists, matching the ascending iteration order
    of the C++ containers.
  * C++ exceptions are modelled by Except / Option error results.  For
    AddDocument, which mutates the object before it can throw, the model
    returns the (possibly partially mutated) state together with an
    optional error, mirroring the C++ object state after a throw.
-/
import Mathlib

/-! # Characters, validity, tokenizer (string_processing.cpp, search_server.cpp) -/

/-- C iscntrl on the ASCII range: code points below 32 and 127. -/
def isCntrl (c : Char) : Bool := c.toNat < 32 || c.toNat == 127

/-- SearchServer::IsValidWord: no control characters (none_of iscntrl). -/
def IsValidWord (w : String) : Bool := w.data.all (fun c => !isCntrl c)

/-- Loop of SplitIntoWords: getline(is, word, ' ') splits at every single
space character; the accumulator holds the current token reversed. -/
def splitAux : List Char → List Char → List (List Char)
  | [], acc => [acc.reverse]
  | c :: rest, acc =>
    if c = ' ' then acc.reverse :: splitAux rest [] else splitAux rest (c :: acc)

/-- SplitIntoWords (string_processing.cpp): istringstream getline with the
space delimiter.  getline fails (extracting nothing) when the stream is
already at end of input, so a final empty token is dropped; interior and
leading empty tokens are kept. -/
def SplitIntoWords (text : String) : List String :=
  let parts := splitAux text.data []
  (if parts.getLast? = some [] then parts.dropLast else parts).map String.mk

/-! # Documents (document.h / document.cpp) -/

inductive DocumentStatus
  | ACTUAL
  | IRRELEVANT
  | BANNED
  | REMOVED
deriving DecidableEq

structure Document where
  id : Int
  relevance : Rat
  rating : Int
deriving DecidableEq

/-- kEpsilon of document.cpp. -/
def kEpsilon : Rat := 1 / 1000000

/-- std::abs. -/
def ratAbs (x : Rat) : Rat := if x < 0 then -x else x

/-- IsDoubleEqual (document.cpp): absolute difference below 1e-6. -/
def IsDoubleEqual (x y : Rat) : Bool := decide (ratAbs (x - y) < kEpsilon)

/-- operator< on Document (document.cpp): near-equal relevances compare by
rating descending, otherwise by relevance descending. -/
def docLt (a b : Document) : Bool :=
  if IsDoubleEqual a.relevance b.relevance then decide (b.rating < a.rating)
  else decide (b.relevance < a.relevance)

/-- One insertion step of the deterministic sort model used for
std::sort(matched_documents) with operator<: place the new element before
the first element not strictly below it. -/
def sortInsert (a : Document) : List Document → List Document
  | [] => [a]
  | b :: l => if docLt b a then b :: sortInsert a l else a :: b :: l

/-- Deterministic model of std::sort with operator< on Document. -/
def sortDocs (l : List Document) : List Document := l.foldr sortInsert []

/-! # Sorted association maps (std::map / std::set models) -/

/-- word -> (document id -> term frequency) inner map, and the
document_to_relevance accumulator: id-sorted association list. -/
abbrev Postings := List (Int × Rat)

/-- Lookup (std::map::at / count on an int-keyed map). -/
def amFind : Postings → Int → Option Rat
  | [], _ => none
  | (k, v) :: m, j => if j = k then some v else amFind m j

/-- map[k] += v on an id-sorted map (operator[] defaults to 0). -/
def amBump : Postings → Int → Rat → Postings
  | [], k, v => [(k, v)]
  | (k', v') :: m, k, v =>
    if k < k' then (k, v) :: (k', v') :: m
    else if k = k' then (k', v' + v) :: m
    else (k', v') :: amBump m k v

/-- map.erase(k). -/
def amErase (m : Postings) (k : Int) : Postings := m.filter (fun e => e.1 != k)

structure DocumentData where
  rating : Int
  status : DocumentStatus
deriving DecidableEq

/-- storage_ : std::map<int, DocumentData>, id-sorted. -/
abbrev Storage := List (Int × DocumentData)

def stFind : Storage → Int → Option DocumentData
  | [], _ => none
  | (k, v) :: m, j => if j = k then some v else stFind m j

/-- std::map::insert: keeps the existing entry when the key is present. -/
def stInsert : Storage → Int → DocumentData → Storage
  | [], k, v => [(k, v)]
  | (k', v') :: m, k, v =>
    if k < k' then (k, v) :: (k', v') :: m
    else if k = k' then (k', v') :: m
    else (k', v') :: stInsert m k v

/-- Lexicographic comparison of character lists (std::string operator<). -/
def strLtAux : List Char → List Char → Bool
  | [], [] => false
  | [], _ :: _ => true
  | _ :: _, [] => false
  | a :: as, b :: bs => if a < b then true else if b < a then false else strLtAux as bs

/-- std::string operator<: lexicographic order. -/
def strLt (a b : String) : Bool := strLtAux a.data b.data

/-- word_to_document_frequency_ : std::map<std::string, std::map<int, double>>,
word-sorted. -/
abbrev Index := List (String × Postings)

def ixFind : Index → String → Option Postings
  | [], _ => none
  | (k, v) :: m, j => if j = k then some v else ixFind m j

/-- word_to_document_frequency_[word][id] += v. -/
def ixBump : Index → String → Int → Rat → Index
  | [], w, id, v => [(w, [(id, v)])]
  | (w', ps) :: m, w, id, v =>
    if strLt w w' then (w, [(id, v)]) :: (w', ps) :: m
    else if w = w' then (w', amBump ps id v) :: m
    else (w', ps) :: ixBump m w id v

/-- Sorted duplicate-free insertion into a std::set<std::string> model. -/
def setInsert (w : String) : List String → List String
  | [] => [w]
  | x :: l => if strLt w x then w :: x :: l else if w = x then x :: l else x :: setInsert w l

/-! # The server state (search_server.h) -/

structure Server where
  stop_words_ : List String
  word_to_document_frequency_ : Index
  storage_ : Storage
  documents_ : List Int
deriving DecidableEq

def emptyServer : Server := ⟨[], [], [], []⟩

/-- Error taxonomy: invalidArgument models std::invalid_argument thrown by
AddDocument validation, invalidQuery models std::invalid_argument thrown
by query parsing, notFound models std::out_of_range from map::at /
vector::at. -/
inductive Err
  | invalidArgument
  | invalidQuery
  | notFound
deriving DecidableEq

deriving instance DecidableEq for Except

def IsStopWord (s : Server) (w : String) : Bool := s.stop_words_.contains w

def SetStopWords (s : Server) (text : String) : Server :=
  { s with stop_words_ := (SplitIntoWords text).foldl (fun acc w => setInsert w acc) s.stop_words_ }

/-- Loop body of SplitIntoWordsNoStop: each token is kept unless it is a
stop word, and an invalid token aborts the whole call with an exception
(the locally collected vector is discarded). -/
def noStopAux (s : Server) : List String → Except Err (List String)
  | [] => .ok []
  | w :: ws =>
    if !IsValidWord w then .error .invalidArgument
    else
      match noStopAux s ws with
      | .error e => .error e
      | .ok rest => .ok (if IsStopWord s w then rest else w :: rest)

def SplitIntoWordsNoStop (s : Server) (text : String) : Except Err (List String) :=
  noStopAux s (SplitIntoWords text)

/-- SearchServer::ComputeAverageRating: 0 for an empty list, otherwise the
sum divided by the count with C++ int division (truncation toward zero),
which is Int.tdiv. -/
def ComputeAverageRating (ratings : List Int) : Int :=
  if ratings = [] then 0 else Int.tdiv ratings.sum (ratings.length : Int)

/-- SearchServer::CheckDocumentId: negative ids and already present ids are
rejected. -/
def CheckDocumentId (s : Server) (id : Int) : Option Err :=
  if id < 0 then some .invalidArgument
  else if (stFind s.storage_ id).isSome then some .invalidArgument
  else none

/-- SearchServer::AddDocument, including its mutation order: the insertion
order vector documents_ is extended before the word validation that can
throw, so a validation failure leaves that push in place.  The returned
pair is (state after the call, error if one was thrown). -/
def AddDocument (s : Server) (id : Int) (text : String) (status : DocumentStatus)
    (ratings : List Int) : Server × Option Err :=
  match CheckDocumentId s id with
  | some e => (s, some e)
  | none =>
    let s1 : Server := { s with documents_ := s.documents_ ++ [id] }
    match SplitIntoWordsNoStop s1 text with
    | .error e => (s1, some e)
    | .ok kWords =>
      let kInv : Rat := 1 / (kWords.length : Rat)
      let ix := kWords.foldl (fun acc w => ixBump acc w id kInv) s1.word_to_document_frequency_
      ({ s1 with
          word_to_document_frequency_ := ix,
          storage_ := stInsert s1.storage_ id ⟨ComputeAverageRating ratings, status⟩ }, none)

def GetDocumentCount (s : Server) : Nat := s.storage_.length

/-- SearchServer::GetDocumentId: documents_.at(index); out-of-range access
(including negative indices, which convert to huge size_t values) throws,
modelled by none. -/
def GetDocumentId (s : Server) (i : Int) : Option Int :=
  if i < 0 then none else s.documents_.get? i.toNat

/-! # Query parsing (search_server.cpp) -/

structure QueryWord where
  data : String
  is_minus : Bool
  is_stop : Bool
deriving DecidableEq

structure Query where
  plus_words_ : List String
  minus_words_ : List String
deriving DecidableEq

/-- Strip one leading minus character (text.substr(1) after the front
check). -/
def stripMinus (w : String) : Bool × String :=
  match w.data with
  | '-' :: rest => (true, String.mk rest)
  | _ => (false, w)

/-- Does the string start with a minus character. -/
def startsMinus (w : String) : Bool :=
  match w.data with
  | '-' :: _ => true
  | _ => false

/-- SearchServer::ParseQueryWord: an empty remainder, a second leading
minus, or a control character is invalid. -/
def ParseQueryWord (s : Server) (text : String) : Except Err QueryWord :=
  let p := stripMinus text
  if p.2.data.isEmpty || startsMinus p.2 || !IsValidWord p.2 then .error .invalidQuery
  else .ok ⟨p.2, p.1, IsStopWord s p.2⟩

/-- Loop of SearchServer::ParseQuery over the tokens. -/
def parseQueryAux (s : Server) : List String → Query → Except Err Query
  | [], q => .ok q
  | w :: ws, q =>
    match ParseQueryWord s w with
    | .error e => .error e
    | .ok kw =>
      if kw.is_stop then parseQueryAux s ws q
      else if kw.is_minus then
        parseQueryAux s ws { q with minus_words_ := setInsert kw.data q.minus_words_ }
      else
        parseQueryAux s ws { q with plus_words_ := setInsert kw.data q.plus_words_ }

def ParseQuery (s : Server) (text : String) : Except Err Query :=
  parseQueryAux s (SplitIntoWords text) ⟨[], []⟩

/-! # Ranking (FindAllDocuments / FindTopDocuments) -/

/-- storage_.at(id) as used in ranking.  In every state reachable through
AddDocument each posting id has a storage entry; the default is never
read there. -/
def storageAt (s : Server) (id : Int) : DocumentData :=
  (stFind s.storage_ id).getD ⟨0, .ACTUAL⟩

/-- SearchServer::ComputeWordInverseDocumentFrequency:
log(document count / posting count of the word), with log abstracted as
rlog. -/
def ComputeWordInverseDocumentFrequency (rlog : Rat → Rat) (s : Server) (w : String) : Rat :=
  rlog ((GetDocumentCount s : Rat) /
    (((ixFind s.word_to_document_frequency_ w).getD []).length : Rat))

/-- Plus-word pass of FindAllDocuments for one word: skip words absent from
the index, otherwise accumulate termFreq * idf for each posting whose
document satisfies the predicate. -/
def plusStep (rlog : Rat → Rat) (s : Server) (pred : Int → DocumentStatus → Int → Bool)
    (m : Postings) (w : String) : Postings :=
  match ixFind s.word_to_document_frequency_ w with
  | none => m
  | some posts =>
    posts.foldl (fun acc e =>
      if pred e.1 (storageAt s e.1).status (storageAt s e.1).rating then
        amBump acc e.1 (e.2 * ComputeWordInverseDocumentFrequency rlog s w)
      else acc) m

/-- Minus-word pass of FindAllDocuments for one word: erase every document
in the word's postings, unconditionally. -/
def minusStep (s : Server) (m : Postings) (w : String) : Postings :=
  match ixFind s.word_to_document_frequency_ w with
  | none => m
  | some posts => posts.foldl (fun acc e => amErase acc e.1) m

/-- SearchServer::MakeDocuments: read the relevance map in ascending id
order, attaching the stored rating. -/
def MakeDocuments (s : Server) (m : Postings) : List Document :=
  m.map (fun e => ⟨e.1, e.2, (storageAt s e.1).rating⟩)

def FindAllDocuments (rlog : Rat → Rat) (s : Server) (q : Query)
    (pred : Int → DocumentStatus → Int → Bool) : List Document :=
  MakeDocuments s
    (q.minus_words_.foldl (minusStep s)
      (q.plus_words_.foldl (plusStep rlog s pred) []))

/-- kMaxResultDocumentSize. -/
def kMaxResultDocumentSize : Nat := 5

/-- SearchServer::FindTopDocuments(raw_query, predicate): parse, rank,
sort with operator<, truncate to five entries. -/
def FindTopDocuments (rlog : Rat → Rat) (s : Server) (raw : String)
    (pred : Int → DocumentStatus → Int → Bool) : Except Err (List Document) :=
  (ParseQuery s raw).map (fun q =>
    (sortDocs (FindAllDocuments rlog s q pred)).take kMaxResultDocumentSize)

/-! # Matching (SearchServer::MatchDocument) -/

/-- word_to_document_frequency_.count(word) == 1 &&
word_to_document_frequency_.at(word).count(id) == 1. -/
def hasPosting (s : Server) (w : String) (id : Int) : Bool :=
  match ixFind s.word_to_document_frequency_ w with
  | none => false
  | some posts => (amFind posts id).isSome

/-- SearchServer::MatchDocument: collect the plus words whose postings
contain the document, clear them all if any minus word's postings contain
it, then read the status with storage_.at (out_of_range when absent,
modelled as notFound). -/
def MatchDocument (s : Server) (raw : String) (id : Int) :
    Except Err (List String × DocumentStatus) :=
  match ParseQuery s raw with
  | .error e => .error e
  | .ok q =>
    let matched := q.plus_words_.filter (fun w => hasPosting s w id)
    let matched := if q.minus_words_.any (fun w => hasPosting s w id) then [] else matched
    match stFind s.storage_ id with
    | none => .error .notFound
    | some dd => .ok (matched, dd.status)

/-! # Duplicate removal (remove_duplicates.cpp)

remove_duplicates.cpp iterates over the server, reads per-document word
frequencies and removes documents; the search_server.h/.cpp revision
declaring GetWordFrequencies, RemoveDocument and server iteration is not
part of the repository snapshot (only this caller and the tests), so
those three members are modelled from the spec. -/

/-- Modelled from the spec: GetWordFrequencies(id) / WordsOf(id), whose
definition is missing from the snapshot — the set/mapping of words and
term frequencies for one document, empty for an unknown id; derived from
the inverted index, in word order. -/
def GetWordFrequencies (s : Server) (id : Int) : List (String × Rat) :=
  s.word_to_document_frequency_.filterMap
    (fun e => (amFind e.2 id).map (fun tf => (e.1, tf)))

/-- Modelled from the spec: RemoveDocument(id), whose definition is missing
from the snapshot — strips the id from every word's postings, from the
document store, and from the insertion-order sequence. -/
def RemoveDocument (s : Server) (id : Int) : Server :=
  { s with
      word_to_document_frequency_ :=
        s.word_to_document_frequency_.map (fun e => (e.1, amErase e.2 id)),
      storage_ := s.storage_.filter (fun e => e.1 != id),
      documents_ := s.documents_.filter (fun d => d != id) }

/-- The word set of a document as remove_duplicates.cpp builds it:
the keys of GetWordFrequencies(id). -/
def wordSetOf (s : Server) (id : Int) : List String :=
  (GetWordFrequencies s id).map Prod.fst

/-- First loop of RemoveDuplicates: walk the documents (server iteration,
modelled from the spec as insertion order), keep a set of previously seen
word sets, and collect the ids whose word set was already seen. -/
def dupScan (s : Server) : List Int → List (List String) → List Int → List Int
  | [], _, bin => bin
  | id :: rest, seen, bin =>
    if wordSetOf s id ∈ seen then dupScan s rest seen (bin ++ [id])
    else dupScan s rest (wordSetOf s id :: seen) bin

/-- RemoveDuplicates (remove_duplicates.cpp): scan for duplicates, then
remove every collected id. -/
def RemoveDuplicates (s : Server) : Server :=
  (dupScan s s.documents_ [] []).foldl RemoveDocument s

/-! # Request queue (request_queue.h / request_queue.cpp) -/

structure RequestQueue where
  timeline_ : List Int
  time_window_ : Int
  empty_results_metric_ : Int
deriving DecidableEq

/-- RequestQueue constructor with default arguments time_window = 1440 and
default_metric_value = 0. -/
def mkRequestQueue (time_window : Int) (default_metric_value : Int) : RequestQueue :=
  ⟨[], time_window, default_metric_value⟩

/-- Eviction loop of CollectMetrics: pop from the front while the timeline
exceeds the window, decrementing the metric for evicted zero entries.
(The C++ loop can only reach the empty deque when the window is negative,
which the constructor defaults never produce; the model stops there.) -/
def evictLoop (w : Int) : List Int → Int → List Int × Int
  | [], m => ([], m)
  | x :: rest, m =>
    if w < ((x :: rest).length : Int) then
      evictLoop w rest (if x = 0 then m - 1 else m)
    else (x :: rest, m)

/-- RequestQueue::CollectMetrics. -/
def CollectMetrics (q : RequestQueue) (result : List Document) : RequestQueue :=
  let metric := if result.isEmpty then q.empty_results_metric_ + 1 else q.empty_results_metric_
  let p := evictLoop q.time_window_ (q.timeline_ ++ [(result.length : Int)]) metric
  ⟨p.1, q.time_window_, p.2⟩

/-- RequestQueue::AddFindRequest(raw_query, predicate): run the wrapped
query; on success feed the result to CollectMetrics, on a thrown parse
error the queue is untouched. -/
def AddFindRequest (rlog : Rat → Rat) (srv : Server) (q : RequestQueue) (raw : String)
    (pred : Int → DocumentStatus → Int → Bool) :
    Except Err (List Document) × RequestQueue :=
  match FindTopDocuments rlog srv raw pred with
  | .error e => (.error e, q)
  | .ok res => (.ok res, CollectMetrics q res)

/-- A sequence of successful AddFindRequest outcomes fed through
CollectMetrics. -/
def processAll (q : RequestQueue) (results : List (List Document)) : RequestQueue :=
  results.foldl CollectMetrics q

/-! # Spec-side definitions used to state the claims -/

/-- The last n elements of a list, in order. -/
def lastN (n : Nat) (l : List Int) : List Int := l.drop (l.length - n)

/-- Number of zero entries. -/
def countZeros (l : List Int) : Nat := (l.filter (fun x => x == 0)).length

/-- Spec wording for one plus word's relevance contribution to one
document: termFrequency(word, doc) * log(totalDocumentCount /
documentFrequency(word)) when the word is in the index, the document is
in its postings and the predicate admits the document; 0 otherwise. -/
def specContribution (rlog : Rat → Rat) (s : Server)
    (pred : Int → DocumentStatus → Int → Bool) (id : Int) (w : String) : Rat :=
  match ixFind s.word_to_document_frequency_ w with
  | none => 0
  | some posts =>
    match amFind posts id with
    | none => 0
    | some tf =>
      if pred id (storageAt s id).status (storageAt s id).rating then
        tf * rlog ((GetDocumentCount s : Rat) / (posts.length : Rat))
      else 0

/-- Spec wording for a document's relevance: the sum of the contributions
of the query's plus words. -/
def specRelevance (rlog : Rat → Rat) (s : Server)
    (pred : Int → DocumentStatus → Int → Bool) (plus : List String) (id : Int) : Rat :=
  (plus.map (specContribution rlog s pred id)).sum

/-- Spec wording for a malformed query token: empty after prefix handling,
a bare minus, a doubled minus prefix, or a control character after
stripping. -/
def specBadToken (w : String) : Prop :=
  (stripMinus w).2 = "" ∨ w = "-" ∨ w.data.take 2 = ['-', '-'] ∨
    (∃ c ∈ (stripMinus w).2.data, isCntrl c = true)

instance (w : String) : Decidable (specBadToken w) := by
  unfold specBadToken; infer_instance

/-- Well-formed index: every word's postings are strictly sorted by
document id (the std::map invariant); true in every state reachable
through AddDocument. -/
def WF (s : Server) : Prop :=
  ∀ e ∈ s.word_to_document_frequency_, List.Pairwise (fun a b => a.1 < b.1) e.2

instance (s : Server) : Decidable (WF s) := by
  unfold WF; infer_instance

/-- Relevance-map lookup with the zero default of std::map operator[]. -/
def amGetD (m : Postings) (j : Int) : Rat := (amFind m j).getD 0

/-- The std::map key invariant: strictly ascending keys. -/
def KeySorted (m : Postings) : Prop := List.Pairwise (fun a b => a.1 < b.1) m

instance (m : Postings) : Decidable (KeySorted m) := by
  unfold KeySorted; infer_instance

/-- The std::set<std::string> invariant: strictly ascending words. -/
def StrSorted (l : List String) : Prop := List.Pairwise (fun a b => strLt a b = true) l

/-- Does an Except hold an error. -/
def isErr {α : Type} (e : Except Err α) : Bool :=
  match e with
  | .error _ => true
  | .ok _ => false

/-! # Concrete fixtures used by witnesses and counterexamples -/

/-- A one-document server: AddDocument(1, "a", ACTUAL, []). -/
def fixtureA : Server := (AddDocument emptyServer 1 "a" .ACTUAL []).1

/-- Two documents: AddDocument(1, "a b"), AddDocument(2, "a"). -/
def fixtureAB : Server :=
  (AddDocument (AddDocument emptyServer 1 "a b" .ACTUAL []).1 2 "a" .ACTUAL []).1

/-- A log stand-in for the C3 counterexample: the value 2/5 at 3/2 agrees
with ln(3/2) = 0.405465... to the first digit, close enough that the C++
run with the true log behaves identically on the fixture (all comparisons
hold with wide margins). -/
def rlogTie : Rat → Rat := fun q => if q = 3/2 then 2/5 else 0

/-- A server whose two matching documents end up with relevances that
differ by less than 1e-6 but are not equal: the word w occurs once in a
700-word document (id 1, rating 1) and once in a 701-word document (id 2,
rating 5); a third document (id 3) does not contain w, so the inverse
document frequency log(3/2) is positive.  Only the postings of the query
word and of one filler word are materialised; the remaining filler words
of documents 1 and 2 have no bearing on the query "w". -/
def fixtureTie : Server :=
  ⟨[], [("w", [(1, 1/700), (2, 1/701)]), ("z", [(3, 1)])],
   [(1, ⟨1, .ACTUAL⟩), (2, ⟨5, .ACTUAL⟩), (3, ⟨0, .ACTUAL⟩)], [1, 2, 3]⟩

/-- Duplicate documents added with descending ids:
AddDocument(7, "a"), AddDocument(3, "a"). -/
def fixtureDup : Server :=
  (AddDocument (AddDocument emptyServer 7 "a" .ACTUAL []).1 3 "a" .ACTUAL []).1

/-- A document whose text contains two consecutive spaces:
AddDocument(1, "a  b", ACTUAL, []). -/
def fixtureGap : Server := (AddDocument emptyServer 1 "a  b" .ACTUAL []).1

/-! # Lemmas: sorted association maps -/

theorem amFind_eq_none (m : Postings) (j : Int) (h : ∀ e ∈ m, e.1 ≠ j) :
    amFind m j = none := by
  induction m with
  | nil => rfl
  | cons e m ih =>
    obtain ⟨k, v⟩ := e
    have h1 : k ≠ j := h (k, v) (List.mem_cons_self _ _)
    simp only [amFind]
    rw [if_neg (fun hj => h1 hj.symm)]
    exact ih (fun e' he' => h e' (List.mem_cons_of_mem _ he'))

theorem mem_amBump (m : Postings) (k : Int) (v : Rat) (e : Int × Rat)
    (h : e ∈ amBump m k v) : e.1 = k ∨ e ∈ m := by
  induction m with
  | nil =>
    simp only [amBump, List.mem_singleton] at h
    exact Or.inl (by rw [h])
  | cons f m ih =>
    obtain ⟨k', v'⟩ := f
    simp only [amBump] at h
    by_cases hk : k < k'
    · rw [if_pos hk] at h
      rcases List.mem_cons.1 h with h1 | h1
      · exact Or.inl (by rw [h1])
      · exact Or.inr h1
    · rw [if_neg hk] at h
      by_cases hke : k = k'
      · rw [if_pos hke] at h
        rcases List.mem_cons.1 h with h1 | h1
        · subst h1; exact Or.inl hke.symm
        · exact Or.inr (List.mem_cons_of_mem _ h1)
      · rw [if_neg hke] at h
        rcases List.mem_cons.1 h with h1 | h1
        · subst h1; exact Or.inr (List.mem_cons_self _ _)
        · rcases ih h1 with h2 | h2
          · exact Or.inl h2
          · exact Or.inr (List.mem_cons_of_mem _ h2)

theorem amBump_sorted (m : Postings) (k : Int) (v : Rat) (hs : KeySorted m) :
    KeySorted (amBump m k v) := by
  induction m with
  | nil => simp [amBump, KeySorted]
  | cons f m ih =>
    obtain ⟨k', v'⟩ := f
    rcases List.pairwise_cons.1 hs with ⟨hf, hs'⟩
    simp only [amBump]
    by_cases hk : k < k'
    · rw [if_pos hk]
      refine List.pairwise_cons.2 ⟨?_, hs⟩
      intro e he
      rcases List.mem_cons.1 he with h1 | h1
      · rw [h1]; exact hk
      · exact lt_trans hk (hf e h1)
    · rw [if_neg hk]
      by_cases hke : k = k'
      · rw [if_pos hke]
        exact List.pairwise_cons.2 ⟨hf, hs'⟩
      · rw [if_neg hke]
        refine List.pairwise_cons.2 ⟨?_, ih hs'⟩
        intro e he
        rcases mem_amBump m k v e he with h2 | h2
        · simp only at hf ⊢; omega
        · exact hf e h2

theorem amFind_bump (m : Postings) (k : Int) (v : Rat) (hs : KeySorted m) (j : Int) :
    amFind (amBump m k v) j = if j = k then some (amGetD m k + v) else amFind m j := by
  induction m with
  | nil => by_cases hj : j = k <;> simp [amBump, amFind, amGetD, hj]
  | cons f m ih =>
    obtain ⟨k', v'⟩ := f
    rcases List.pairwise_cons.1 hs with ⟨hf, hs'⟩
    by_cases hk : k < k'
    · by_cases hj : j = k
      · subst hj
        have h2 : amFind m j = none := amFind_eq_none m j (fun e he => by
          have := hf e he; simp only at this; omega)
        have hjk' : ¬ j = k' := by omega
        simp [amBump, amFind, amGetD, hk, hjk', h2]
      · simp [amBump, amFind, amGetD, hk, hj]
    · by_cases hke : k = k'
      · subst hke
        by_cases hj : j = k <;> simp [amBump, amFind, amGetD, hk, hj]
      · have hke' : ¬ k' = k := fun h => hke h.symm
        by_cases hj : j = k'
        · have hjk : ¬ j = k := by omega
          simp [amBump, amFind, amGetD, hk, hke, hke', hj, hjk]
        · by_cases hjk : j = k
          · subst hjk
            simp [amBump, amFind, amGetD, hk, hke, hke', hj, ih hs']
          · simp [amBump, amFind, amGetD, hk, hke, hke', hj, hjk, ih hs']

theorem amGetD_bump (m : Postings) (k : Int) (v : Rat) (hs : KeySorted m) (j : Int) :
    amGetD (amBump m k v) j = if j = k then amGetD m k + v else amGetD m j := by
  simp only [amGetD, amFind_bump m k v hs j]
  by_cases hj : j = k
  · rw [if_pos hj, if_pos hj]; rfl
  · rw [if_neg hj, if_neg hj]

theorem amFind_erase (m : Postings) (k j : Int) :
    amFind (amErase m k) j = if j = k then none else amFind m j := by
  induction m with
  | nil =>
    simp only [amErase, List.filter_nil, amFind]
    by_cases hj : j = k
    · rw [if_pos hj]
    · rw [if_neg hj]
  | cons f m ih =>
    obtain ⟨k', v'⟩ := f
    simp only [amErase, List.filter_cons] at ih ⊢
    by_cases hfk : k' = k
    · have hb : (((k', v') : Int × Rat).1 != k) = true ↔ False := by simp [hfk]
      rw [if_neg (by simpa using hb)]
      rw [ih]
      by_cases hj : j = k
      · rw [if_pos hj, if_pos hj]
      · rw [if_neg hj, if_neg hj]
        simp only [amFind]
        rw [if_neg (fun h : j = k' => hj (h.trans hfk))]
    · have hb : (((k', v') : Int × Rat).1 != k) = true := by simp [hfk]
      rw [if_pos hb]
      simp only [amFind]
      by_cases hj : j = k'
      · rw [if_pos hj, if_neg (fun h : j = k => hfk (hj.symm.trans h)), if_pos hj]
      · rw [if_neg hj, ih]
        by_cases hjk : j = k
        · rw [if_pos hjk, if_pos hjk]
        · rw [if_neg hjk, if_neg hjk, if_neg hj]

theorem amErase_sorted (m : Postings) (k : Int) (hs : KeySorted m) :
    KeySorted (amErase m k) := List.Pairwise.sublist (List.filter_sublist m) hs

theorem amFind_of_mem (m : Postings) (e : Int × Rat) (hs : KeySorted m) (h : e ∈ m) :
    amFind m e.1 = some e.2 := by
  induction m with
  | nil => cases h
  | cons f m ih =>
    obtain ⟨k', v'⟩ := f
    rcases List.pairwise_cons.1 hs with ⟨hf, hs'⟩
    rcases List.mem_cons.1 h with h1 | h1
    · subst h1; simp [amFind]
    · have hne : e.1 ≠ k' := by have := hf e h1; simp only at this; omega
      simp only [amFind]
      rw [if_neg hne]
      exact ih hs' h1

/-! # Lemmas: the document sort -/

theorem ratAbs_sub_comm (x y : Rat) : ratAbs (x - y) = ratAbs (y - x) := by
  unfold ratAbs
  split_ifs with h1 h2 h2 <;> linarith

theorem IsDoubleEqual_symm (x y : Rat) : IsDoubleEqual x y = IsDoubleEqual y x := by
  unfold IsDoubleEqual
  rw [ratAbs_sub_comm]

theorem docLt_asymm (a b : Document) (h : docLt a b = true) : docLt b a = false := by
  unfold docLt at h ⊢
  rw [IsDoubleEqual_symm]
  by_cases htie : IsDoubleEqual a.relevance b.relevance = true
  · rw [if_pos htie] at h ⊢
    simp only [decide_eq_true_eq] at h
    simp only [decide_eq_false_iff_not]
    omega
  · rw [if_neg htie] at h ⊢
    simp only [decide_eq_true_eq] at h
    simp only [decide_eq_false_iff_not]
    exact lt_asymm h

theorem sortInsert_perm (a : Document) (l : List Document) :
    List.Perm (sortInsert a l) (a :: l) := by
  induction l with
  | nil => exact List.Perm.refl _
  | cons b l ih =>
    simp only [sortInsert]
    by_cases h : docLt b a = true
    · rw [if_pos h]
      exact (ih.cons b).trans (List.Perm.swap a b l)
    · rw [if_neg h]

theorem sortDocs_perm (l : List Document) : List.Perm (sortDocs l) l := by
  induction l with
  | nil => exact List.Perm.refl _
  | cons a l ih =>
    simp only [sortDocs, List.foldr_cons]
    exact (sortInsert_perm a _).trans (ih.cons a)

theorem mem_of_mem_result (d : Document) (l : List Document) (n : Nat)
    (h : d ∈ (sortDocs l).take n) : d ∈ l :=
  (sortDocs_perm l).mem_iff.1 (List.mem_of_mem_take h)

theorem sortInsert_chain (a : Document) (l : List Document)
    (h : List.Chain' (fun x y => docLt y x = false) l) :
    List.Chain' (fun x y => docLt y x = false) (sortInsert a l) ∧
      ((sortInsert a l).head? = some a ∨ (sortInsert a l).head? = l.head?) := by
  induction l with
  | nil => exact ⟨List.chain'_singleton a, Or.inl rfl⟩
  | cons b l ih =>
    obtain ⟨hhead, htail⟩ := List.chain'_cons'.1 h
    by_cases hba : docLt b a = true
    · obtain ⟨ihc, ihh⟩ := ih htail
      simp only [sortInsert, if_pos hba]
      refine ⟨List.chain'_cons'.2 ⟨?_, ihc⟩, Or.inr rfl⟩
      intro y hy
      rcases ihh with h1 | h1
      · rw [h1, Option.mem_def, Option.some_inj] at hy
        rw [← hy]
        exact docLt_asymm b a hba
      · rw [h1] at hy
        exact hhead y hy
    · simp only [sortInsert, if_neg hba]
      refine ⟨List.chain'_cons'.2 ⟨?_, h⟩, Or.inl rfl⟩
      intro y hy
      simp only [List.head?_cons, Option.mem_def, Option.some_inj] at hy
      rw [← hy]
      exact Bool.not_eq_true _ ▸ (Bool.eq_false_iff.2 hba)

theorem sortDocs_chain (l : List Document) :
    List.Chain' (fun x y => docLt y x = false) (sortDocs l) := by
  induction l with
  | nil => exact List.chain'_nil
  | cons a l ih =>
    simp only [sortDocs, List.foldr_cons]
    exact (sortInsert_chain a _ ih).1

/-! # Lemmas: the plus-word accumulation -/

theorem amFind_some_mem (m : Postings) (j : Int) (v : Rat) (h : amFind m j = some v) :
    (j, v) ∈ m := by
  induction m with
  | nil => cases h
  | cons e m ih =>
    obtain ⟨k, v'⟩ := e
    simp only [amFind] at h
    by_cases hj : j = k
    · rw [if_pos hj] at h
      rw [hj, Option.some_inj.1 h]
      exact List.mem_cons_self _ _
    · rw [if_neg hj] at h
      exact List.mem_cons_of_mem _ (ih h)

theorem ixFind_mem (ix : Index) (w : String) (ps : Postings) (h : ixFind ix w = some ps) :
    (w, ps) ∈ ix := by
  induction ix with
  | nil => cases h
  | cons e ix ih =>
    obtain ⟨w', ps'⟩ := e
    simp only [ixFind] at h
    by_cases hw : w = w'
    · rw [if_pos hw] at h
      rw [hw, Option.some_inj.1 h]
      exact List.mem_cons_self _ _
    · rw [if_neg hw] at h
      exact List.mem_cons_of_mem _ (ih h)

theorem foldBumpIf_sorted (f : Int × Rat → Bool) (g : Int × Rat → Rat) :
    ∀ (posts m : Postings), KeySorted m →
    KeySorted (posts.foldl (fun acc e => if f e then amBump acc e.1 (g e) else acc) m)
  | [], m, hm => hm
  | e :: posts, m, hm => by
    simp only [List.foldl_cons]
    refine foldBumpIf_sorted f g posts _ ?_
    by_cases hf : f e = true
    · rw [if_pos hf]; exact amBump_sorted m e.1 (g e) hm
    · rw [if_neg hf]; exact hm

theorem foldBumpIf_find_of_not_mem (f : Int × Rat → Bool) (g : Int × Rat → Rat) :
    ∀ (posts m : Postings) (j : Int), (∀ e ∈ posts, e.1 ≠ j) → KeySorted m →
    amFind (posts.foldl (fun acc e => if f e then amBump acc e.1 (g e) else acc) m) j =
      amFind m j
  | [], _, _, _, _ => rfl
  | e :: posts, m, j, hj, hm => by
    simp only [List.foldl_cons]
    have hne : j ≠ e.1 := fun h => hj e (List.mem_cons_self _ _) h.symm
    have step : amFind (if f e then amBump m e.1 (g e) else m) j = amFind m j := by
      by_cases hf : f e = true
      · rw [if_pos hf, amFind_bump m e.1 (g e) hm j, if_neg hne]
      · rw [if_neg hf]
    have hsorted : KeySorted (if f e then amBump m e.1 (g e) else m) := by
      by_cases hf : f e = true
      · rw [if_pos hf]; exact amBump_sorted m e.1 (g e) hm
      · rw [if_neg hf]; exact hm
    rw [foldBumpIf_find_of_not_mem f g posts _ j
      (fun e' he' => hj e' (List.mem_cons_of_mem _ he')) hsorted, step]

theorem foldBumpIf_getD (f : Int × Rat → Bool) (g : Int × Rat → Rat) :
    ∀ (posts m : Postings) (j : Int),
    List.Pairwise (fun a b => a.1 < b.1) posts → KeySorted m →
    amGetD (posts.foldl (fun acc e => if f e then amBump acc e.1 (g e) else acc) m) j =
      amGetD m j +
        (match amFind posts j with
         | none => 0
         | some tf => if f (j, tf) then g (j, tf) else 0)
  | [], m, j, _, _ => by simp [amFind]
  | e :: posts, m, j, hp, hm => by
    obtain ⟨k, v⟩ := e
    obtain ⟨hhd, hp'⟩ := List.pairwise_cons.1 hp
    simp only [List.foldl_cons]
    have hsorted : KeySorted (if f (k, v) then amBump m (k, v).1 (g (k, v)) else m) := by
      by_cases hf : f (k, v) = true
      · rw [if_pos hf]; exact amBump_sorted _ _ _ hm
      · rw [if_neg hf]; exact hm
    by_cases hj : j = k
    · subst hj
      have hrest : ∀ e' ∈ posts, e'.1 ≠ j := fun e' he' h => by
        have := hhd e' he'; simp only at this; omega
      have h1 : amFind ((j, v) :: posts) j = some v := by simp [amFind]
      rw [h1]
      show amGetD ((posts).foldl
        (fun acc e => if f e then amBump acc e.1 (g e) else acc)
        (if f (j, v) then amBump m (j, v).1 (g (j, v)) else m)) j =
        amGetD m j + (if f (j, v) then g (j, v) else 0)
      rw [amGetD, foldBumpIf_find_of_not_mem f g posts _ j hrest hsorted, ← amGetD]
      by_cases hf : f (j, v) = true <;>
        simp [hf, amGetD_bump m j (g (j, v)) hm]
    · have h1 : amFind ((k, v) :: posts) j = amFind posts j := by simp [amFind, hj]
      rw [h1]
      have hstep : amGetD (if f (k, v) then amBump m (k, v).1 (g (k, v)) else m) j =
          amGetD m j := by
        by_cases hf : f (k, v) = true <;>
          simp [hf, amGetD_bump m k (g (k, v)) hm, hj]
      rw [foldBumpIf_getD f g posts _ j hp' hsorted, hstep]

theorem plusStep_sorted (rlog : Rat → Rat) (s : Server)
    (pred : Int → DocumentStatus → Int → Bool) (m : Postings) (w : String)
    (hm : KeySorted m) : KeySorted (plusStep rlog s pred m w) := by
  unfold plusStep
  cases hix : ixFind s.word_to_document_frequency_ w with
  | none => exact hm
  | some posts => exact foldBumpIf_sorted _ _ posts m hm

theorem plusStep_getD (rlog : Rat → Rat) (s : Server)
    (pred : Int → DocumentStatus → Int → Bool) (m : Postings) (w : String) (j : Int)
    (hwf : WF s) (hm : KeySorted m) :
    amGetD (plusStep rlog s pred m w) j = amGetD m j + specContribution rlog s pred j w := by
  cases hix : ixFind s.word_to_document_frequency_ w with
  | none => simp [plusStep, specContribution, hix]
  | some posts =>
    have hp : List.Pairwise (fun a b => a.1 < b.1) posts :=
      hwf (w, posts) (ixFind_mem _ _ _ hix)
    have hidf : ComputeWordInverseDocumentFrequency rlog s w =
        rlog ((GetDocumentCount s : Rat) / (posts.length : Rat)) := by
      unfold ComputeWordInverseDocumentFrequency
      rw [hix, Option.getD_some]
    simp only [plusStep, specContribution, hix]
    rw [foldBumpIf_getD _ _ posts m j hp hm]
    cases hfind : amFind posts j with
    | none => simp
    | some tf => simp [hidf]

theorem foldPlus_sorted (rlog : Rat → Rat) (s : Server)
    (pred : Int → DocumentStatus → Int → Bool) :
    ∀ (ws : List String) (m : Postings), KeySorted m →
    KeySorted (ws.foldl (plusStep rlog s pred) m)
  | [], _, hm => hm
  | w :: ws, m, hm =>
    foldPlus_sorted rlog s pred ws _ (plusStep_sorted rlog s pred m w hm)

theorem foldPlus_getD (rlog : Rat → Rat) (s : Server)
    (pred : Int → DocumentStatus → Int → Bool) (hwf : WF s) :
    ∀ (ws : List String) (m : Postings) (j : Int), KeySorted m →
    amGetD (ws.foldl (plusStep rlog s pred) m) j =
      amGetD m j + specRelevance rlog s pred ws j
  | [], m, j, _ => by simp [specRelevance]
  | w :: ws, m, j, hm => by
    simp only [List.foldl_cons]
    rw [foldPlus_getD rlog s pred hwf ws _ j (plusStep_sorted rlog s pred m w hm),
      plusStep_getD rlog s pred m w j hwf hm]
    simp only [specRelevance, List.map_cons, List.sum_cons]
    ring

/-! # Lemmas: the minus-word erasure -/

theorem foldErase_sorted : ∀ (posts m : Postings), KeySorted m →
    KeySorted (posts.foldl (fun acc e => amErase acc e.1) m)
  | [], _, hm => hm
  | e :: posts, m, hm =>
    foldErase_sorted posts _ (amErase_sorted m e.1 hm)

theorem foldErase_find_some : ∀ (posts m : Postings) (j : Int) (v : Rat),
    amFind (posts.foldl (fun acc e => amErase acc e.1) m) j = some v →
    amFind m j = some v
  | [], _, _, _, h => h
  | e :: posts, m, j, v, h => by
    simp only [List.foldl_cons] at h
    have h1 := foldErase_find_some posts _ j v h
    rw [amFind_erase m e.1 j] at h1
    by_cases hj : j = e.1
    · rw [if_pos hj] at h1; cases h1
    · rw [if_neg hj] at h1; exact h1

theorem foldErase_find_none : ∀ (posts m : Postings) (j : Int),
    (∃ e ∈ posts, e.1 = j) →
    amFind (posts.foldl (fun acc e => amErase acc e.1) m) j = none
  | [], _, _, h => by simp at h
  | e :: posts, m, j, h => by
    simp only [List.foldl_cons]
    cases hfind : amFind (posts.foldl (fun acc e => amErase acc e.1) (amErase m e.1)) j with
    | none => rfl
    | some v =>
      have h1 := foldErase_find_some posts _ j v hfind
      rw [amFind_erase m e.1 j] at h1
      by_cases hj : j = e.1
      · rw [if_pos hj] at h1; cases h1
      · rw [if_neg hj] at h1
        rcases h with ⟨e', he', hej⟩
        rcases List.mem_cons.1 he' with h2 | h2
        · exact absurd (h2 ▸ hej).symm hj
        · rw [foldErase_find_none posts (amErase m e.1) j ⟨e', h2, hej⟩] at hfind
          cases hfind

theorem minusStep_sorted (s : Server) (m : Postings) (w : String) (hm : KeySorted m) :
    KeySorted (minusStep s m w) := by
  unfold minusStep
  cases ixFind s.word_to_document_frequency_ w with
  | none => exact hm
  | some posts => exact foldErase_sorted posts m hm

theorem minusStep_find_some (s : Server) (m : Postings) (w : String) (j : Int) (v : Rat)
    (h : amFind (minusStep s m w) j = some v) : amFind m j = some v := by
  unfold minusStep at h
  cases hix : ixFind s.word_to_document_frequency_ w with
  | none => rw [hix] at h; exact h
  | some posts => rw [hix] at h; exact foldErase_find_some posts m j v h

theorem minusStep_veto (s : Server) (m : Postings) (w : String) (j : Int)
    (h : hasPosting s w j = true) : amFind (minusStep s m w) j = none := by
  unfold hasPosting at h
  unfold minusStep
  cases hix : ixFind s.word_to_document_frequency_ w with
  | none => rw [hix] at h; cases h
  | some posts =>
    rw [hix] at h
    simp only [Option.isSome_iff_exists] at h
    rcases h with ⟨v, hv⟩
    exact foldErase_find_none posts m j ⟨(j, v), amFind_some_mem posts j v hv, rfl⟩

theorem foldMinus_sorted (s : Server) : ∀ (ws : List String) (m : Postings), KeySorted m →
    KeySorted (ws.foldl (minusStep s) m)
  | [], _, hm => hm
  | w :: ws, m, hm => foldMinus_sorted s ws _ (minusStep_sorted s m w hm)

theorem foldMinus_find_some (s : Server) : ∀ (ws : List String) (m : Postings) (j : Int)
    (v : Rat), amFind (ws.foldl (minusStep s) m) j = some v → amFind m j = some v
  | [], _, _, _, h => h
  | w :: ws, m, j, v, h =>
    minusStep_find_some s m w j v (foldMinus_find_some s ws _ j v h)

theorem foldMinus_veto (s : Server) : ∀ (ws : List String) (m : Postings) (j : Int),
    (∃ w ∈ ws, hasPosting s w j = true) →
    amFind (ws.foldl (minusStep s) m) j = none
  | [], _, _, h => by simp at h
  | w :: ws, m, j, h => by
    simp only [List.foldl_cons]
    cases hfind : amFind (ws.foldl (minusStep s) (minusStep s m w)) j with
    | none => rfl
    | some v =>
      rcases h with ⟨w', hw', hpost⟩
      rcases List.mem_cons.1 hw' with h2 | h2
      · subst h2
        have h1 := foldMinus_find_some s ws _ j v hfind
        rw [minusStep_veto s m w' j hpost] at h1
        cases h1
      · rw [foldMinus_veto s ws (minusStep s m w) j ⟨w', h2, hpost⟩] at hfind
        cases hfind

/-! # Lemmas: FindAllDocuments and FindTopDocuments membership -/

theorem mem_FindAllDocuments (rlog : Rat → Rat) (s : Server) (q : Query)
    (pred : Int → DocumentStatus → Int → Bool) (d : Document)
    (h : d ∈ FindAllDocuments rlog s q pred) :
    amFind (q.minus_words_.foldl (minusStep s)
        (q.plus_words_.foldl (plusStep rlog s pred) [])) d.id = some d.relevance ∧
      d.rating = (storageAt s d.id).rating := by
  unfold FindAllDocuments MakeDocuments at h
  rcases List.mem_map.1 h with ⟨e, he, hde⟩
  have hsorted : KeySorted (q.minus_words_.foldl (minusStep s)
      (q.plus_words_.foldl (plusStep rlog s pred) [])) :=
    foldMinus_sorted s _ _ (foldPlus_sorted rlog s pred _ _ (List.Pairwise.nil))
  have hfind := amFind_of_mem _ e hsorted he
  constructor
  · rw [← hde]
    exact hfind
  · rw [← hde]

theorem FindTopDocuments_ok (rlog : Rat → Rat) (s : Server) (raw : String)
    (pred : Int → DocumentStatus → Int → Bool) (q : Query) (res : List Document)
    (hq : ParseQuery s raw = .ok q)
    (hr : FindTopDocuments rlog s raw pred = .ok res) :
    res = (sortDocs (FindAllDocuments rlog s q pred)).take kMaxResultDocumentSize := by
  unfold FindTopDocuments at hr
  rw [hq] at hr
  simp only [Except.map] at hr
  cases hr
  rfl

/-! # Claim C1 -/

/-- C1: for every server state, raw query and caller-supplied predicate,
every document in the FindTopDocuments result has relevance equal to the
sum, over the query's plus words that occur in the inverted index and in
that document's postings, of termFrequency(word, doc) *
log(totalDocumentCount / documentFrequency(word)), where a posting
contributes only when the predicate admits its document
(specContribution / specRelevance state exactly that sum). -/
theorem C1_relevance_is_tf_idf_sum (rlog : Rat → Rat) (s : Server) (raw : String)
    (pred : Int → DocumentStatus → Int → Bool) (q : Query) (res : List Document)
    (d : Document) (hwf : WF s) (hq : ParseQuery s raw = .ok q)
    (hr : FindTopDocuments rlog s raw pred = .ok res) (hd : d ∈ res) :
    d.relevance = specRelevance rlog s pred q.plus_words_ d.id := by
  rw [FindTopDocuments_ok rlog s raw pred q res hq hr] at hd
  have hmem := mem_of_mem_result d _ _ hd
  obtain ⟨hfind, -⟩ := mem_FindAllDocuments rlog s q pred d hmem
  have h1 := foldMinus_find_some s q.minus_words_ _ d.id d.relevance hfind
  have h2 := foldPlus_getD rlog s pred hwf q.plus_words_ [] d.id List.Pairwise.nil
  rw [amGetD, h1, Option.getD_some] at h2
  rw [h2]
  simp [amGetD, amFind]

unseal Rat.add Rat.mul Rat.inv Rat.sub in
/-- Witness for C1 on fixtureA with the query "a". -/
theorem C1_witness :
    (Document.mk 1 1 0).relevance =
      specRelevance (fun _ => 1) fixtureA (fun _ _ _ => true) ["a"] 1 :=
  C1_relevance_is_tf_idf_sum (fun _ => 1) fixtureA "a" (fun _ _ _ => true)
    ⟨["a"], []⟩ [⟨1, 1, 0⟩] ⟨1, 1, 0⟩ (by decide) (by decide) (by decide) (by decide)

/-! # Claim C2 -/

/-- C2: a document whose postings contain any minus word of the query never
appears in the FindTopDocuments result, for every caller-supplied
predicate — the minus-word veto is unconditional. -/
theorem C2_minus_word_veto (rlog : Rat → Rat) (s : Server) (raw : String)
    (pred : Int → DocumentStatus → Int → Bool) (q : Query) (res : List Document)
    (id : Int) (hq : ParseQuery s raw = .ok q)
    (hveto : ∃ w ∈ q.minus_words_, hasPosting s w id = true)
    (hr : FindTopDocuments rlog s raw pred = .ok res) :
    ∀ d ∈ res, d.id ≠ id := by
  intro d hd hdid
  rw [FindTopDocuments_ok rlog s raw pred q res hq hr] at hd
  have hmem := mem_of_mem_result d _ _ hd
  obtain ⟨hfind, -⟩ := mem_FindAllDocuments rlog s q pred d hmem
  rw [hdid, foldMinus_veto s q.minus_words_ _ id hveto] at hfind
  cases hfind

unseal Rat.add Rat.mul Rat.inv Rat.sub in
/-- Witness for C2 on fixtureAB with the query "a -b": document 1 contains
both the plus word and the minus word, satisfies the predicate, and is
vetoed. -/
theorem C2_witness : (Document.mk 2 1 0).id ≠ 1 :=
  C2_minus_word_veto (fun _ => 1) fixtureAB "a -b" (fun _ _ _ => true)
    ⟨["a"], ["b"]⟩ [⟨2, 1, 0⟩] 1 (by decide) ⟨"b", by decide, by decide⟩ (by decide)
    ⟨2, 1, 0⟩ (List.mem_cons_self _ _)

/-! # Claim C3 -/

theorem docLt_false_elim (a b : Document) (h : docLt b a = false) :
    if ratAbs (a.relevance - b.relevance) < kEpsilon then b.rating ≤ a.rating
    else b.relevance < a.relevance := by
  unfold docLt at h
  rw [IsDoubleEqual_symm] at h
  by_cases htie : IsDoubleEqual a.relevance b.relevance = true
  · rw [if_pos htie] at h
    unfold IsDoubleEqual at htie
    rw [if_pos (of_decide_eq_true htie)]
    simp only [decide_eq_false_iff_not] at h
    omega
  · rw [if_neg htie] at h
    unfold IsDoubleEqual at htie
    have hno : ¬ ratAbs (a.relevance - b.relevance) < kEpsilon := by
      simpa using htie
    rw [if_neg hno]
    simp only [decide_eq_false_iff_not] at h
    rcases lt_or_eq_of_le (not_lt.1 h) with h1 | h1
    · exact h1
    · exfalso
      apply hno
      rw [h1, sub_self]
      have : ratAbs 0 = 0 := by norm_num [ratAbs]
      rw [this]
      norm_num [kEpsilon]

unseal Rat.add Rat.mul Rat.inv Rat.sub in
/-- C3, as frozen, is false on the code: the comparator orders documents
whose relevances differ by less than 1e-6 by rating alone, so a pair with
strictly increasing relevance can be adjacent in the output.  This
counterexample exhibits it: on fixtureTie the query w returns the
relevances 2/3505 (rating 5) before 1/1750 (rating 1) although
2/3505 < 1/1750, the two being within 1e-6 of each other, so the list is
not ordered with relevance non-increasing. -/
theorem C3_counterexample :
    FindTopDocuments rlogTie fixtureTie "w" (fun _ _ _ => true) =
      .ok [⟨2, 2/3505, 5⟩, ⟨1, 1/1750, 1⟩] ∧
    ratAbs ((2/3505 : Rat) - 1/1750) < kEpsilon ∧ ((2/3505 : Rat) < 1/1750) := by
  exact ⟨by decide, by decide, by decide⟩

/-- C3 amended: the FindTopDocuments result never has more than five
entries, and every adjacent pair (x, y) is ordered by the comparator of
document.cpp: when the relevances are within 1e-6 of each other the
ratings are non-increasing, otherwise the relevance strictly decreases.
The global non-increase of relevance claimed originally can fail across
an epsilon tie, as C3_counterexample shows. -/
theorem C3_amended (rlog : Rat → Rat) (s : Server) (raw : String)
    (pred : Int → DocumentStatus → Int → Bool) (res : List Document)
    (hr : FindTopDocuments rlog s raw pred = .ok res) :
    res.length ≤ 5 ∧
    List.Chain' (fun x y =>
      if ratAbs (x.relevance - y.relevance) < kEpsilon then y.rating ≤ x.rating
      else y.relevance < x.relevance) res := by
  unfold FindTopDocuments at hr
  cases hpq : ParseQuery s raw with
  | error e => rw [hpq] at hr; cases hr
  | ok q =>
    rw [hpq] at hr
    simp only [Except.map] at hr
    cases hr
    constructor
    · exact le_trans (List.length_take_le _ _) (le_refl _)
    · exact ((sortDocs_chain _).take _).imp (fun {a b} h => docLt_false_elim a b h)

unseal Rat.add Rat.mul Rat.inv Rat.sub in
/-- Witness for C3_amended on fixtureTie. -/
theorem C3_amended_witness :
    ([⟨2, 2/3505, 5⟩, ⟨1, 1/1750, 1⟩] : List Document).length ≤ 5 ∧
    List.Chain' (fun x y : Document =>
      if ratAbs (x.relevance - y.relevance) < kEpsilon then y.rating ≤ x.rating
      else y.relevance < x.relevance)
      ([⟨2, 2/3505, 5⟩, ⟨1, 1/1750, 1⟩] : List Document) :=
  C3_amended rlogTie fixtureTie "w" (fun _ _ _ => true) _ (by decide)

/-! # Claim C4 -/

unseal Rat.add Rat.mul Rat.inv Rat.sub in
/-- C4 (code bug): AddDocument appends the id to the insertion-order
vector documents_ before the word validation that can throw, so a call
rejected for a control character leaves the rejected id observable: on
the empty server AddDocument(1, "a\x01b", ACTUAL, []) fails, yet
afterwards GetDocumentId(0) returns 1 where it failed before, while the
document count, storage and inverted index are unchanged.  The failures
caught by CheckDocumentId (negative id, duplicate id) mutate nothing. -/
theorem C4_failed_add_leaves_id_behind :
    (AddDocument emptyServer 1 "a\x01b" .ACTUAL []).2 = some .invalidArgument ∧
    (AddDocument emptyServer 1 "a\x01b" .ACTUAL []).1.documents_ = [1] ∧
    GetDocumentId (AddDocument emptyServer 1 "a\x01b" .ACTUAL []).1 0 = some 1 ∧
    GetDocumentId emptyServer 0 = none ∧
    GetDocumentCount (AddDocument emptyServer 1 "a\x01b" .ACTUAL []).1 = 0 ∧
    (AddDocument emptyServer 1 "a\x01b" .ACTUAL []).1.storage_ = emptyServer.storage_ ∧
    (AddDocument emptyServer 1 "a\x01b" .ACTUAL []).1.word_to_document_frequency_ =
      emptyServer.word_to_document_frequency_ ∧
    (AddDocument emptyServer (-1) "x" .ACTUAL []).1 = emptyServer ∧
    (AddDocument fixtureA 1 "b" .ACTUAL []).1 = fixtureA := by
  decide

/-! # Claim C8 -/

theorem tdiv_eq_sign_mul (a : Int) (n : Nat) :
    Int.tdiv a (Int.ofNat n) = Int.sign a * ((a.natAbs / n : Nat) : Int) := by
  rcases a with m | m
  · cases m with
    | zero => simp
    | succ k =>
      show Int.ofNat ((k + 1) / n) =
        Int.sign (Int.ofNat (k + 1)) * (((k + 1) / n : Nat) : Int)
      rw [show Int.sign (Int.ofNat (k + 1)) = 1 from rfl, one_mul]
      rfl
  · show -Int.ofNat ((m + 1) / n) =
      Int.sign (Int.negSucc m) * (((Int.negSucc m).natAbs / n : Nat) : Int)
    rw [show Int.sign (Int.negSucc m) = -1 from rfl,
      show (Int.negSucc m).natAbs = m + 1 from rfl, neg_one_mul]
    rfl

/-- C8: the stored rating is the integer mean truncated toward zero:
0 for an empty ratings list, and otherwise sign(sum) times the natural
division of the absolute value of the sum by the count — truncation
toward zero, not floor, also for negative sums. -/
theorem C8_rating_truncates_toward_zero (ratings : List Int) :
    (ratings = [] → ComputeAverageRating ratings = 0) ∧
    (ratings ≠ [] →
      ComputeAverageRating ratings =
        Int.sign ratings.sum * ((ratings.sum.natAbs / ratings.length : Nat) : Int)) := by
  constructor
  · intro h
    simp [ComputeAverageRating, h]
  · intro h
    unfold ComputeAverageRating
    rw [if_neg h]
    exact tdiv_eq_sign_mul ratings.sum ratings.length

/-- Witness for C8 on the ratings [-7, 2]: the sum -5 divided by 2
truncates toward zero to -2 (floor division would give -3). -/
theorem C8_witness :
    ComputeAverageRating [-7, 2] =
      Int.sign (([-7, 2] : List Int).sum) *
        (((([-7, 2] : List Int).sum.natAbs / ([-7, 2] : List Int).length : Nat)) : Int) :=
  (C8_rating_truncates_toward_zero [-7, 2]).2 (by decide)

/-! # Claim C9 -/

theorem countZeros_append (a b : List Int) :
    countZeros (a ++ b) = countZeros a + countZeros b := by
  unfold countZeros
  rw [List.filter_append, List.length_append]

theorem countZeros_cons (x : Int) (l : List Int) :
    countZeros (x :: l) = (if x = 0 then 1 else 0) + countZeros l := by
  unfold countZeros
  by_cases hx : x = 0
  · have hb : (x == 0) = true := by simp [hx]
    rw [if_pos hx, List.filter_cons, if_pos hb, List.length_cons]
    omega
  · have hb : (x == 0) = false := by simp [hx]
    rw [if_neg hx, List.filter_cons, if_neg (by simp [hb])]
    omega

theorem rtake_rtake_append (l : List Int) (x : Int) (n : Nat) :
    List.rtake (List.rtake l n ++ [x]) n = List.rtake (l ++ [x]) n := by
  cases n with
  | zero => rw [List.rtake_zero, List.rtake_zero]
  | succ k =>
    rw [List.rtake_concat_succ, List.rtake_concat_succ]
    congr 1
    rw [List.rtake_eq_reverse_take_reverse, List.rtake_eq_reverse_take_reverse,
      List.rtake_eq_reverse_take_reverse, List.reverse_reverse, List.take_take]
    congr 2
    omega

theorem evictLoop_eq (w : Int) : ∀ (l : List Int) (m : Int),
    evictLoop w l m =
      (l.rtake w.toNat, m - (countZeros (l.rdrop w.toNat) : Int))
  | [], m => by
    simp [evictLoop, List.rtake_nil, List.rdrop_nil, countZeros]
  | x :: rest, m => by
    simp only [evictLoop]
    by_cases h : w < ((x :: rest).length : Int)
    · rw [if_pos h]
      have hn : w.toNat ≤ rest.length := by
        simp only [List.length_cons] at h
        omega
      have ht : (x :: rest).rtake w.toNat = rest.rtake w.toNat := by
        show (x :: rest).drop ((x :: rest).length - w.toNat) =
          rest.drop (rest.length - w.toNat)
        rw [List.length_cons,
          show rest.length + 1 - w.toNat = (rest.length - w.toNat) + 1 by omega,
          List.drop_succ_cons]
      have hd : (x :: rest).rdrop w.toNat = x :: rest.rdrop w.toNat := by
        show (x :: rest).take ((x :: rest).length - w.toNat) =
          x :: rest.take (rest.length - w.toNat)
        rw [List.length_cons,
          show rest.length + 1 - w.toNat = (rest.length - w.toNat) + 1 by omega]
        rfl
      rw [evictLoop_eq w rest _, ht, hd, countZeros_cons]
      by_cases hx : x = 0
      · rw [if_pos hx, if_pos hx]
        simp only [Prod.mk.injEq]
        refine ⟨trivial, ?_⟩
        push_cast
        ring
      · rw [if_neg hx, if_neg hx]
        simp only [Prod.mk.injEq]
        refine ⟨trivial, ?_⟩
        push_cast
        ring
    · rw [if_neg h]
      have hn : rest.length + 1 ≤ w.toNat := by
        simp only [List.length_cons] at h
        omega
      have ht : (x :: rest).rtake w.toNat = x :: rest := by
        show (x :: rest).drop ((x :: rest).length - w.toNat) = x :: rest
        rw [List.length_cons, show rest.length + 1 - w.toNat = 0 by omega, List.drop_zero]
      have hd : (x :: rest).rdrop w.toNat = [] := by
        show (x :: rest).take ((x :: rest).length - w.toNat) = []
        rw [List.length_cons, show rest.length + 1 - w.toNat = 0 by omega, List.take_zero]
      rw [ht, hd]
      simp [countZeros]

theorem CollectMetrics_inv (w : Int) (q : RequestQueue) (sizes : List Int)
    (r : List Document) (hw : q.time_window_ = w)
    (ht : q.timeline_ = sizes.rtake w.toNat)
    (hm : q.empty_results_metric_ = (countZeros q.timeline_ : Int)) :
    (CollectMetrics q r).time_window_ = w ∧
    (CollectMetrics q r).timeline_ = (sizes ++ [(r.length : Int)]).rtake w.toNat ∧
    (CollectMetrics q r).empty_results_metric_ =
      (countZeros (CollectMetrics q r).timeline_ : Int) := by
  have hev := evictLoop_eq q.time_window_ (q.timeline_ ++ [(r.length : Int)])
    (if r.isEmpty then q.empty_results_metric_ + 1 else q.empty_results_metric_)
  simp only [CollectMetrics, hev]
  have htl : (q.timeline_ ++ [(r.length : Int)]).rtake q.time_window_.toNat =
      (sizes ++ [(r.length : Int)]).rtake w.toNat := by
    rw [hw, ht, rtake_rtake_append]
  refine ⟨hw, htl, ?_⟩
  have hsplit : countZeros ((q.timeline_ ++ [(r.length : Int)]).rdrop q.time_window_.toNat) +
      countZeros ((q.timeline_ ++ [(r.length : Int)]).rtake q.time_window_.toNat) =
      countZeros q.timeline_ + countZeros [(r.length : Int)] := by
    rw [← countZeros_append, ← countZeros_append]
    congr 1
    exact List.take_append_drop _ _
  have hlast : countZeros [(r.length : Int)] = if r.isEmpty then 1 else 0 := by
    rw [countZeros_cons]
    by_cases hre : r.isEmpty
    · have h0 : r.length = 0 := List.isEmpty_iff_length_eq_zero.1 hre
      simp [hre, h0, countZeros]
    · have h0 : r.length ≠ 0 := fun h0 => hre (List.isEmpty_iff_length_eq_zero.2 h0)
      have : ¬ ((r.length : Int) = 0) := by omega
      simp [hre, this, countZeros]
  rw [hlast] at hsplit
  by_cases hre : r.isEmpty
  · rw [if_pos hre] at hsplit ⊢
    rw [hm]
    omega
  · rw [if_neg hre] at hsplit ⊢
    rw [hm]
    omega

theorem processAll_inv (w : Int) : ∀ (rs : List (List Document)) (q : RequestQueue)
    (sizes : List Int), q.time_window_ = w → q.timeline_ = sizes.rtake w.toNat →
    q.empty_results_metric_ = (countZeros q.timeline_ : Int) →
    (processAll q rs).time_window_ = w ∧
    (processAll q rs).timeline_ =
      (sizes ++ rs.map (fun r => (r.length : Int))).rtake w.toNat ∧
    (processAll q rs).empty_results_metric_ =
      (countZeros (processAll q rs).timeline_ : Int)
  | [], q, sizes, hw, ht, hm => by
    simp only [processAll, List.foldl_nil, List.map_nil, List.append_nil]
    exact ⟨hw, ht, hm⟩
  | r :: rs, q, sizes, hw, ht, hm => by
    obtain ⟨hw', ht', hm'⟩ := CollectMetrics_inv w q sizes r hw ht hm
    have := processAll_inv w rs (CollectMetrics q r) (sizes ++ [(r.length : Int)]) hw' ht' hm'
    simpa [processAll, List.append_assoc] using this

/-- C9: starting from a RequestQueue with initial metric 0 over window w,
after any sequence of successful AddFindRequest calls (each feeding its
result to CollectMetrics) the log holds exactly the most recent result
sizes, oldest first, capped at the window size, and GetNoResultRequests
(the stored metric) equals the number of zero entries in that log.  On a
successful query AddFindRequest updates the queue through CollectMetrics
and on a thrown query error it leaves the queue unchanged.  With window 3
and result sizes [0, 2, 0, 0] the log is [2, 0, 0] and the metric 2. -/
theorem C9_sliding_window_metric (w : Int) (rs : List (List Document)) :
    (processAll (mkRequestQueue w 0) rs).timeline_ =
      (rs.map (fun r => (r.length : Int))).rtake w.toNat ∧
    (processAll (mkRequestQueue w 0) rs).timeline_.length ≤ w.toNat ∧
    (processAll (mkRequestQueue w 0) rs).empty_results_metric_ =
      (countZeros (processAll (mkRequestQueue w 0) rs).timeline_ : Int) ∧
    (∀ (rlog : Rat → Rat) (srv : Server) (q : RequestQueue) (raw : String)
      (pred : Int → DocumentStatus → Int → Bool),
      (AddFindRequest rlog srv q raw pred).2 =
        match FindTopDocuments rlog srv raw pred with
        | .ok res => CollectMetrics q res
        | .error _ => q) ∧
    (processAll (mkRequestQueue 3 0) [[], [⟨0, 0, 0⟩, ⟨0, 0, 0⟩], [], []]).timeline_ =
      [2, 0, 0] ∧
    (processAll (mkRequestQueue 3 0) [[], [⟨0, 0, 0⟩, ⟨0, 0, 0⟩], [], []]).empty_results_metric_ =
      2 := by
  obtain ⟨-, ht, hm⟩ := processAll_inv w rs (mkRequestQueue w 0) []
    rfl (by rw [List.rtake_nil]; rfl) (by simp [mkRequestQueue, countZeros])
  rw [List.nil_append] at ht
  refine ⟨ht, ?_, hm, ?_, by decide, by decide⟩
  · rw [ht]
    show (List.drop _ _).length ≤ _
    rw [List.length_drop]
    omega
  · intro rlog srv q raw pred
    unfold AddFindRequest
    cases FindTopDocuments rlog srv raw pred with
    | error e => rfl
    | ok res => rfl

/-! # Claim C10 -/

unseal Rat.add Rat.mul Rat.inv Rat.sub in
/-- C10: the tokenizer splits on single spaces only, so "a  b" (two
consecutive spaces) produces an empty token, and AddDocument indexes the
empty string as an ordinary word: it gets its own posting with nonzero
term frequency 1/3 for the document, and it is counted in the word-count
denominator, so the other two words also get term frequency 1/3 rather
than 1/2. -/
theorem C10_empty_token_is_indexed :
    SplitIntoWords "a  b" = ["a", "", "b"] ∧
    (AddDocument emptyServer 1 "a  b" .ACTUAL []).2 = none ∧
    ixFind fixtureGap.word_to_document_frequency_ "" = some [(1, 1/3)] ∧
    ixFind fixtureGap.word_to_document_frequency_ "a" = some [(1, 1/3)] ∧
    ixFind fixtureGap.word_to_document_frequency_ "b" = some [(1, 1/3)] ∧
    ((1 : Rat)/3 ≠ 0) := by
  decide

/-! # Lemmas: the string order -/

theorem strLtAux_iff_lex : ∀ (a b : List Char), strLtAux a b = true ↔ List.Lex (· < ·) a b
  | [], [] => by
    constructor
    · intro h; exact absurd h (by decide)
    · intro h; cases h
  | [], b :: bs => by
    constructor
    · intro _; exact List.Lex.nil
    · intro _; rfl
  | a :: as, [] => by
    constructor
    · intro h; exact absurd h (by simp [strLtAux])
    · intro h; cases h
  | a :: as, b :: bs => by
    simp only [strLtAux]
    by_cases hab : a < b
    · rw [if_pos hab]
      constructor
      · intro _; exact List.Lex.rel hab
      · intro _; rfl
    · rw [if_neg hab]
      by_cases hba : b < a
      · rw [if_pos hba]
        constructor
        · intro h; exact absurd h (by decide)
        · intro h
          cases h with
          | cons h1 => exact absurd hba (lt_irrefl _)
          | rel h1 => exact absurd h1 hab
      · rw [if_neg hba]
        have heq : a = b := le_antisymm (le_of_not_lt hba) (le_of_not_lt hab)
        subst heq
        constructor
        · intro h; exact List.Lex.cons ((strLtAux_iff_lex as bs).1 h)
        · intro h
          cases h with
          | cons h1 => exact (strLtAux_iff_lex as bs).2 h1
          | rel h1 => exact absurd h1 hab

theorem strLt_iff_lt (a b : String) : strLt a b = true ↔ a < b := by
  rw [String.lt_iff_toList_lt]
  exact strLtAux_iff_lex a.data b.data

theorem strLt_trans (a b c : String) (h1 : strLt a b = true) (h2 : strLt b c = true) :
    strLt a c = true :=
  (strLt_iff_lt a c).2 (lt_trans ((strLt_iff_lt a b).1 h1) ((strLt_iff_lt b c).1 h2))

theorem strLt_total (a b : String) (h : strLt a b = false) (hne : a ≠ b) :
    strLt b a = true := by
  rcases lt_trichotomy a b with h1 | h1 | h1
  · rw [(strLt_iff_lt a b).2 h1] at h
    cases h
  · exact absurd h1 hne
  · exact (strLt_iff_lt b a).2 h1

/-! # Lemmas: sorted set insertion and query parsing -/

theorem mem_setInsert (w : String) : ∀ (l : List String) (x : String),
    x ∈ setInsert w l ↔ x = w ∨ x ∈ l
  | [], x => by simp [setInsert]
  | y :: l, x => by
    simp only [setInsert]
    by_cases h1 : strLt w y = true
    · rw [if_pos h1]
      simp [List.mem_cons, or_comm, or_assoc, or_left_comm]
    · rw [if_neg h1]
      by_cases h2 : w = y
      · rw [if_pos h2]
        subst h2
        simp only [List.mem_cons]
        constructor
        · intro h; exact Or.inr h
        · rintro (h | h)
          · exact Or.inl h
          · exact h
      · rw [if_neg h2]
        simp only [List.mem_cons, mem_setInsert w l x]
        tauto

theorem setInsert_sorted (w : String) : ∀ (l : List String), StrSorted l →
    StrSorted (setInsert w l)
  | [], _ => List.pairwise_singleton _ _
  | y :: l, h => by
    obtain ⟨hy, h'⟩ := List.pairwise_cons.1 h
    simp only [setInsert]
    by_cases h1 : strLt w y = true
    · rw [if_pos h1]
      refine List.pairwise_cons.2 ⟨?_, h⟩
      intro x hx
      rcases List.mem_cons.1 hx with h2 | h2
      · rw [h2]; exact h1
      · exact strLt_trans w y x h1 (hy x h2)
    · rw [if_neg h1]
      by_cases h2 : w = y
      · rw [if_pos h2]; exact h
      · rw [if_neg h2]
        refine List.pairwise_cons.2 ⟨?_, setInsert_sorted w l h'⟩
        intro x hx
        rcases (mem_setInsert w l x).1 hx with h3 | h3
        · rw [h3]
          exact strLt_total w y (Bool.eq_false_iff.2 h1) h2
        · exact hy x h3

theorem parseQueryAux_sorted (s : Server) : ∀ (ws : List String) (q q' : Query),
    parseQueryAux s ws q = .ok q' → StrSorted q.plus_words_ → StrSorted q.minus_words_ →
    StrSorted q'.plus_words_ ∧ StrSorted q'.minus_words_
  | [], q, q', h, hp, hm => by
    simp only [parseQueryAux] at h
    cases h
    exact ⟨hp, hm⟩
  | w :: ws, q, q', h, hp, hm => by
    simp only [parseQueryAux] at h
    cases hpw : ParseQueryWord s w with
    | error e => simp only [hpw] at h; exact Except.noConfusion h
    | ok kw =>
      simp only [hpw] at h
      by_cases h1 : kw.is_stop = true
      · rw [if_pos h1] at h
        exact parseQueryAux_sorted s ws q q' h hp hm
      · rw [if_neg h1] at h
        by_cases h2 : kw.is_minus = true
        · rw [if_pos h2] at h
          exact parseQueryAux_sorted s ws _ q' h hp (setInsert_sorted kw.data _ hm)
        · rw [if_neg h2] at h
          exact parseQueryAux_sorted s ws _ q' h (setInsert_sorted kw.data _ hp) hm

theorem ParseQuery_sorted (s : Server) (text : String) (q : Query)
    (h : ParseQuery s text = .ok q) :
    StrSorted q.plus_words_ ∧ StrSorted q.minus_words_ :=
  parseQueryAux_sorted s (SplitIntoWords text) ⟨[], []⟩ q h List.Pairwise.nil
    List.Pairwise.nil

/-! # C5: MatchDocument -/

/-- C5: with a parsed query, MatchDocument on an id absent from the store
fails with notFound; on a stored id it returns the document's status
together with a word list that is strictly lexicographically sorted, is
empty whenever some minus word has a posting for the id, and otherwise
holds exactly the plus words with a posting for the id. -/
theorem C5_match_document (s : Server) (raw : String) (id : Int) (q : Query)
    (hq : ParseQuery s raw = .ok q) :
    (stFind s.storage_ id = none → MatchDocument s raw id = .error .notFound) ∧
    (∀ dd, stFind s.storage_ id = some dd →
      ∃ ws, MatchDocument s raw id = .ok (ws, dd.status) ∧
        List.Pairwise (fun a b => a < b) ws ∧
        ((∃ w ∈ q.minus_words_, hasPosting s w id = true) → ws = []) ∧
        ((¬ ∃ w ∈ q.minus_words_, hasPosting s w id = true) →
          ∀ w, w ∈ ws ↔ w ∈ q.plus_words_ ∧ hasPosting s w id = true)) := by
  have hsorted : List.Pairwise (fun a b : String => a < b) q.plus_words_ :=
    ((ParseQuery_sorted s raw q hq).1).imp (fun h => (strLt_iff_lt _ _).1 h)
  constructor
  · intro hnone
    simp only [MatchDocument, hq, hnone]
  · intro dd hsome
    refine ⟨if q.minus_words_.any (fun w => hasPosting s w id) then []
            else q.plus_words_.filter (fun w => hasPosting s w id), ?_, ?_, ?_, ?_⟩
    · simp only [MatchDocument, hq, hsome]
    · by_cases hm : q.minus_words_.any (fun w => hasPosting s w id) = true
      · rw [if_pos hm]; exact List.Pairwise.nil
      · rw [if_neg hm]
        exact List.Pairwise.sublist (List.filter_sublist _) hsorted
    · intro hex
      rcases hex with ⟨w, hw, hp⟩
      have hm : q.minus_words_.any (fun w => hasPosting s w id) = true :=
        List.any_eq_true.2 ⟨w, hw, hp⟩
      rw [if_pos hm]
    · intro hno
      have hm : ¬ q.minus_words_.any (fun w => hasPosting s w id) = true := by
        intro hc
        rcases List.any_eq_true.1 hc with ⟨w, hw, hp⟩
        exact hno ⟨w, hw, hp⟩
      rw [if_neg hm]
      intro w
      exact List.mem_filter

unseal Rat.add Rat.mul Rat.inv Rat.sub in
/-- C5 witness: instantiated on the two-document fixture with the query
consisting of plus word a and minus word b, at document 1. -/
theorem C5_witness :
    (stFind fixtureAB.storage_ 1 = none → MatchDocument fixtureAB "a -b" 1 = .error .notFound) ∧
    (∀ dd, stFind fixtureAB.storage_ 1 = some dd →
      ∃ ws, MatchDocument fixtureAB "a -b" 1 = .ok (ws, dd.status) ∧
        List.Pairwise (fun a b => a < b) ws ∧
        ((∃ w ∈ (⟨["a"], ["b"]⟩ : Query).minus_words_, hasPosting fixtureAB w 1 = true) → ws = []) ∧
        ((¬ ∃ w ∈ (⟨["a"], ["b"]⟩ : Query).minus_words_, hasPosting fixtureAB w 1 = true) →
          ∀ w, w ∈ ws ↔ w ∈ (⟨["a"], ["b"]⟩ : Query).plus_words_ ∧ hasPosting fixtureAB w 1 = true)) :=
  C5_match_document fixtureAB "a -b" 1 ⟨["a"], ["b"]⟩ (by decide)

/-! # C7: query-parse failure characterisation -/

theorem stripMinus_cons_ne (c : Char) (rest : List Char) (hc : c ≠ '-') :
    stripMinus ⟨c :: rest⟩ = (false, ⟨c :: rest⟩) := by
  unfold stripMinus
  split
  · next r heq => exact absurd (List.head_eq_of_cons_eq heq) hc
  · rfl

theorem startsMinus_cons_ne (c : Char) (rest : List Char) (hc : c ≠ '-') :
    startsMinus ⟨c :: rest⟩ = false := by
  unfold startsMinus
  split
  · next r heq => exact absurd (List.head_eq_of_cons_eq heq) hc
  · rfl

theorem startsMinus_iff (l : List Char) :
    startsMinus ⟨l⟩ = true ↔ ∃ r, l = '-' :: r := by
  cases l with
  | nil =>
    constructor
    · intro h; exact Bool.noConfusion h
    · rintro ⟨r, hr⟩; cases hr
  | cons c rest =>
    by_cases hc : c = '-'
    · subst hc
      constructor
      · intro _; exact ⟨rest, rfl⟩
      · intro _; rfl
    · rw [startsMinus_cons_ne c rest hc]
      constructor
      · intro h; exact Bool.noConfusion h
      · rintro ⟨r, hr⟩
        exact absurd (List.head_eq_of_cons_eq hr) hc

theorem notValid_iff (l : List Char) :
    (!IsValidWord ⟨l⟩) = true ↔ ∃ c ∈ l, isCntrl c = true := by
  simp [IsValidWord, List.all_eq_true]

/-- ParseQueryWord fails exactly on the spec's bad tokens: empty after
prefix handling, a bare minus, a doubled minus prefix, or a control
character after stripping. -/
theorem ParseQueryWord_err_iff (s : Server) (w : String) :
    isErr (ParseQueryWord s w) = true ↔ specBadToken w := by
  have hif : isErr (ParseQueryWord s w) =
      ((stripMinus w).2.data.isEmpty || startsMinus (stripMinus w).2 ||
        !IsValidWord (stripMinus w).2) := by
    simp only [ParseQueryWord]
    by_cases h : ((stripMinus w).2.data.isEmpty || startsMinus (stripMinus w).2 ||
        !IsValidWord (stripMinus w).2) = true
    · rw [if_pos h, h]; rfl
    · rw [if_neg h, Bool.eq_false_iff.2 h]; rfl
  rw [hif]
  obtain ⟨cs⟩ := w
  cases cs with
  | nil =>
    constructor
    · intro _; exact Or.inl rfl
    · intro _; rfl
  | cons c rest =>
    by_cases hc : c = '-'
    · subst hc
      have hsm : stripMinus ⟨'-' :: rest⟩ = (true, ⟨rest⟩) := rfl
      simp only [specBadToken, hsm, Bool.or_eq_true]
      constructor
      · rintro ((h1 | h2) | h3)
        · refine Or.inl ?_
          cases rest with
          | nil => rfl
          | cons a l => exact Bool.noConfusion h1
        · rcases (startsMinus_iff rest).1 h2 with ⟨r, hr⟩
          subst hr
          exact Or.inr (Or.inr (Or.inl rfl))
        · exact Or.inr (Or.inr (Or.inr ((notValid_iff rest).1 h3)))
      · rintro (h1 | h2 | h3 | h4)
        · have hr : rest = [] := congrArg String.data h1
          subst hr
          exact Or.inl (Or.inl rfl)
        · have h2x : ('-' :: rest : List Char) = ['-'] := congrArg String.data h2
          have hr : rest = [] := List.tail_eq_of_cons_eq h2x
          subst hr
          exact Or.inl (Or.inl rfl)
        · refine Or.inl (Or.inr ?_)
          refine (startsMinus_iff rest).2 ?_
          cases rest with
          | nil => exact absurd h3 (by decide)
          | cons a l =>
            have h3x : ('-' :: a :: l.take 0 : List Char) = ['-', '-'] := h3
            have ha : a = '-' := List.head_eq_of_cons_eq (List.tail_eq_of_cons_eq h3x)
            exact ⟨l, by rw [ha]⟩
        · exact Or.inr ((notValid_iff rest).2 h4)
    · have hsm : stripMinus ⟨c :: rest⟩ = (false, ⟨c :: rest⟩) := stripMinus_cons_ne c rest hc
      simp only [specBadToken, hsm, Bool.or_eq_true]
      rw [startsMinus_cons_ne c rest hc]
      constructor
      · rintro ((h1 | h2) | h3)
        · exact Bool.noConfusion h1
        · exact Bool.noConfusion h2
        · exact Or.inr (Or.inr (Or.inr ((notValid_iff (c :: rest)).1 h3)))
      · rintro (h1 | h2 | h3 | h4)
        · have h1x : (c :: rest : List Char) = [] := congrArg String.data h1
          exact List.noConfusion h1x
        · have h2x : (c :: rest : List Char) = ['-'] := congrArg String.data h2
          exact absurd (List.head_eq_of_cons_eq h2x) hc
        · have h3x : (c :: rest.take 1 : List Char) = ['-', '-'] := h3
          exact absurd (List.head_eq_of_cons_eq h3x) hc
        · exact Or.inr ((notValid_iff (c :: rest)).2 h4)

theorem parseQueryAux_err_iff (s : Server) : ∀ (ws : List String) (q : Query),
    isErr (parseQueryAux s ws q) = true ↔ ∃ w ∈ ws, specBadToken w
  | [], q => by
    simp only [parseQueryAux]
    constructor
    · intro h; exact Bool.noConfusion h
    · rintro ⟨w, hw, _⟩; cases hw
  | w :: ws, q => by
    cases hpw : ParseQueryWord s w with
    | error e =>
      have hbad : specBadToken w := (ParseQueryWord_err_iff s w).1 (by rw [hpw]; rfl)
      simp only [parseQueryAux, hpw]
      constructor
      · intro _; exact ⟨w, List.mem_cons_self w ws, hbad⟩
      · intro _; rfl
    | ok kw =>
      have hgood : ¬ specBadToken w := by
        intro hb
        have h1 := (ParseQueryWord_err_iff s w).2 hb
        rw [hpw] at h1
        exact Bool.noConfusion h1
      have key : ∀ q' : Query, (isErr (parseQueryAux s ws q') = true ↔
          ∃ x ∈ w :: ws, specBadToken x) := by
        intro q'
        rw [parseQueryAux_err_iff s ws q']
        constructor
        · rintro ⟨x, hx, hbx⟩; exact ⟨x, List.mem_cons_of_mem w hx, hbx⟩
        · rintro ⟨x, hx, hbx⟩
          rcases List.mem_cons.1 hx with h | h
          · subst h; exact absurd hbx hgood
          · exact ⟨x, h, hbx⟩
      simp only [parseQueryAux, hpw]
      by_cases h1 : kw.is_stop = true
      · rw [if_pos h1]; exact key q
      · rw [if_neg h1]
        by_cases h2 : kw.is_minus = true
        · rw [if_pos h2]; exact key _
        · rw [if_neg h2]; exact key _

theorem foldErase_nil : ∀ (posts : Postings),
    posts.foldl (fun acc e => amErase acc e.1) [] = []
  | [] => rfl
  | p :: ps => by
    show List.foldl _ (amErase [] p.1) ps = []
    exact foldErase_nil ps

theorem minusStep_nil (s : Server) (w : String) : minusStep s [] w = [] := by
  unfold minusStep
  cases hix : ixFind s.word_to_document_frequency_ w with
  | none => rfl
  | some posts => exact foldErase_nil posts

theorem foldMinus_nil (s : Server) : ∀ (ws : List String),
    ws.foldl (minusStep s) [] = []
  | [] => rfl
  | w :: ws => by
    show List.foldl (minusStep s) (minusStep s [] w) ws = []
    rw [minusStep_nil s w]
    exact foldMinus_nil s ws

/-- C7: query parsing fails with invalidQuery exactly when some token of
the split text is bad in the spec sense (empty after prefix handling,
bare minus, doubled minus, or control character after stripping); and a
query that parses with no plus words left — entirely stop words and/or
minus words — makes FindTopDocuments return an empty list, not an
error. -/
theorem C7_invalid_query_and_empty (s : Server) (text : String) :
    (isErr (ParseQuery s text) = true ↔ ∃ w ∈ SplitIntoWords text, specBadToken w) ∧
    (∀ (q : Query) (rlog : Rat → Rat) (pred : Int → DocumentStatus → Int → Bool),
      ParseQuery s text = .ok q → q.plus_words_ = [] →
      FindTopDocuments rlog s text pred = .ok []) := by
  constructor
  · exact parseQueryAux_err_iff s (SplitIntoWords text) ⟨[], []⟩
  · intro q rlog pred hq hplus
    simp only [FindTopDocuments, hq, Except.map, FindAllDocuments, hplus,
      List.foldl_nil, foldMinus_nil]
    rfl

/-- C7 witness: on the empty server the query text consisting of the
single minus word -a parses and yields the empty result list. -/
theorem C7_witness :
    FindTopDocuments (fun _ => 0) emptyServer "-a" (fun _ _ _ => true) = .ok [] :=
  (C7_invalid_query_and_empty emptyServer "-a").2 ⟨[], ["a"]⟩ (fun _ => 0)
    (fun _ _ _ => true) (by decide) rfl

/-! # C6: duplicate removal -/

/-- A duplicate-free list splits at an element in exactly one way. -/
theorem split_unique : ∀ (l₁ l₂ l₃ l₄ : List Int) (x : Int),
    (l₁ ++ x :: l₂).Nodup → l₁ ++ x :: l₂ = l₃ ++ x :: l₄ → l₁ = l₃ ∧ l₂ = l₄
  | [], l₂, l₃, l₄, x, hnd, heq => by
    cases l₃ with
    | nil => exact ⟨rfl, List.tail_eq_of_cons_eq heq⟩
    | cons y t =>
      have hl : l₂ = t ++ x :: l₄ := List.tail_eq_of_cons_eq heq
      have hmem : x ∈ l₂ := by
        rw [hl]; exact List.mem_append.2 (Or.inr (List.mem_cons_self _ _))
      exact absurd hmem (List.nodup_cons.1 hnd).1
  | a :: t₁, l₂, l₃, l₄, x, hnd, heq => by
    cases l₃ with
    | nil =>
      have ha : a = x := List.head_eq_of_cons_eq heq
      subst ha
      exact absurd (List.mem_append.2 (Or.inr (List.mem_cons_self _ _)))
        (List.nodup_cons.1 hnd).1
    | cons y t₃ =>
      have hay : a = y := List.head_eq_of_cons_eq heq
      subst hay
      have htl : t₁ ++ x :: l₂ = t₃ ++ x :: l₄ := List.tail_eq_of_cons_eq heq
      obtain ⟨h1, h2⟩ := split_unique t₁ l₂ t₃ l₄ x (List.nodup_cons.1 hnd).2 htl
      exact ⟨by rw [h1], h2⟩

/-- An id lands in the duplicate bin exactly when its word set was already
seen, either in the initial seen set or at an earlier position of the
walk. -/
theorem mem_dupScan (s : Server) : ∀ (l : List Int) (seen : List (List String))
    (bin : List Int) (j : Int),
    j ∈ dupScan s l seen bin ↔
      j ∈ bin ∨ ∃ l₁ l₂, l = l₁ ++ j :: l₂ ∧
        (wordSetOf s j ∈ seen ∨ ∃ a ∈ l₁, wordSetOf s a = wordSetOf s j)
  | [], seen, bin, j => by
    simp only [dupScan]
    constructor
    · intro h; exact Or.inl h
    · rintro (h | ⟨l₁, l₂, hsplit, _⟩)
      · exact h
      · cases l₁ with
        | nil => exact List.noConfusion hsplit
        | cons y t => exact List.noConfusion hsplit
  | x :: l, seen, bin, j => by
    simp only [dupScan]
    by_cases hx : wordSetOf s x ∈ seen
    · rw [if_pos hx, mem_dupScan s l seen (bin ++ [x]) j]
      constructor
      · rintro (hb | ⟨l₁, l₂, hsplit, hcond⟩)
        · rcases List.mem_append.1 hb with hb' | hb'
          · exact Or.inl hb'
          · have hj : j = x := List.mem_singleton.1 hb'
            subst hj
            exact Or.inr ⟨[], l, rfl, Or.inl hx⟩
        · refine Or.inr ⟨x :: l₁, l₂, by rw [hsplit, List.cons_append], ?_⟩
          rcases hcond with hc | ⟨a, ha, hae⟩
          · exact Or.inl hc
          · exact Or.inr ⟨a, List.mem_cons_of_mem x ha, hae⟩
      · rintro (hb | ⟨l₁, l₂, hsplit, hcond⟩)
        · exact Or.inl (List.mem_append.2 (Or.inl hb))
        · cases l₁ with
          | nil =>
            have hj : x = j := List.head_eq_of_cons_eq (show x :: l = j :: l₂ from hsplit)
            subst hj
            exact Or.inl (List.mem_append.2 (Or.inr (List.mem_singleton.2 rfl)))
          | cons y t =>
            have hy : x = y := List.head_eq_of_cons_eq hsplit
            subst hy
            have hl : l = t ++ j :: l₂ := List.tail_eq_of_cons_eq hsplit
            refine Or.inr ⟨t, l₂, hl, ?_⟩
            rcases hcond with hc | ⟨a, ha, hae⟩
            · exact Or.inl hc
            · rcases List.mem_cons.1 ha with rfl | ha'
              · exact Or.inl (hae ▸ hx)
              · exact Or.inr ⟨a, ha', hae⟩
    · rw [if_neg hx, mem_dupScan s l (wordSetOf s x :: seen) bin j]
      constructor
      · rintro (hb | ⟨l₁, l₂, hsplit, hcond⟩)
        · exact Or.inl hb
        · refine Or.inr ⟨x :: l₁, l₂, by rw [hsplit, List.cons_append], ?_⟩
          rcases hcond with hc | ⟨a, ha, hae⟩
          · rcases List.mem_cons.1 hc with he | hseen
            · exact Or.inr ⟨x, List.mem_cons_self x l₁, he.symm⟩
            · exact Or.inl hseen
          · exact Or.inr ⟨a, List.mem_cons_of_mem x ha, hae⟩
      · rintro (hb | ⟨l₁, l₂, hsplit, hcond⟩)
        · exact Or.inl hb
        · cases l₁ with
          | nil =>
            have hj : x = j := List.head_eq_of_cons_eq (show x :: l = j :: l₂ from hsplit)
            subst hj
            rcases hcond with hc | ⟨a, ha, _⟩
            · exact absurd hc hx
            · cases ha
          | cons y t =>
            have hy : x = y := List.head_eq_of_cons_eq hsplit
            subst hy
            have hl : l = t ++ j :: l₂ := List.tail_eq_of_cons_eq hsplit
            refine Or.inr ⟨t, l₂, hl, ?_⟩
            rcases hcond with hc | ⟨a, ha, hae⟩
            · exact Or.inl (List.mem_cons_of_mem _ hc)
            · rcases List.mem_cons.1 ha with rfl | ha'
              · exact Or.inl (by rw [← hae]; exact List.mem_cons_self _ _)
              · exact Or.inr ⟨a, ha', hae⟩

/-- Folding RemoveDocument over a bin keeps exactly the documents outside
the bin (in the insertion-order vector). -/
theorem mem_foldRemove : ∀ (bin : List Int) (s : Server) (j : Int),
    j ∈ (bin.foldl RemoveDocument s).documents_ ↔ j ∈ s.documents_ ∧ j ∉ bin
  | [], s, j => by
    simp [List.foldl_nil]
  | b :: bin, s, j => by
    rw [List.foldl_cons, mem_foldRemove bin (RemoveDocument s b) j]
    have hdocs : (RemoveDocument s b).documents_ =
        s.documents_.filter (fun d => d != b) := rfl
    rw [hdocs]
    constructor
    · rintro ⟨hmem, hnb⟩
      rcases List.mem_filter.1 hmem with ⟨hmem1, hne⟩
      refine ⟨hmem1, ?_⟩
      intro hj
      rcases List.mem_cons.1 hj with rfl | hj'
      · simp at hne
      · exact hnb hj'
    · rintro ⟨hmem, hnb⟩
      refine ⟨List.mem_filter.2 ⟨hmem, ?_⟩, ?_⟩
      · exact bne_iff_ne.2 (fun h => hnb (by rw [h]; exact List.mem_cons_self _ _))
      · exact fun hj => hnb (List.mem_cons_of_mem b hj)

unseal Rat.add Rat.mul Rat.inv Rat.sub in
/-- C6 counterexample: two documents with the same word set added with
descending ids — AddDocument(7, "a") then AddDocument(3, "a") — leave
document 7 after RemoveDuplicates, although 3 is the lowest id of the
group: the survivor is the earliest added, not the lowest id. -/
theorem C6_counterexample :
    wordSetOf fixtureDup 3 = wordSetOf fixtureDup 7 ∧
    fixtureDup.documents_ = [7, 3] ∧
    (RemoveDuplicates fixtureDup).documents_ = [7] ∧
    (3 : Int) < 7 := by decide

/-- C6 (amended): when the stored ids are distinct, a document survives
RemoveDuplicates exactly when no earlier-added document has the same word
set — the kept member of a duplicate group is the earliest added one
(which is the lowest id only when ids were added in increasing order). -/
theorem C6_amended (s : Server) (id : Int) (l₁ l₂ : List Int)
    (hnd : s.documents_.Nodup) (hsplit : s.documents_ = l₁ ++ id :: l₂) :
    (id ∈ (RemoveDuplicates s).documents_ ↔
      ∀ a ∈ l₁, wordSetOf s a ≠ wordSetOf s id) := by
  unfold RemoveDuplicates
  rw [mem_foldRemove, mem_dupScan]
  constructor
  · rintro ⟨hmem, hnbin⟩ a ha hae
    exact hnbin (Or.inr ⟨l₁, l₂, hsplit, Or.inr ⟨a, ha, hae⟩⟩)
  · intro hall
    refine ⟨by rw [hsplit]; exact List.mem_append.2 (Or.inr (List.mem_cons_self _ _)), ?_⟩
    rintro (hfalse | ⟨l₃, l₄, hsplit2, hcond⟩)
    · cases hfalse
    · rcases hcond with hseen | ⟨a, ha, hae⟩
      · cases hseen
      · have hnd2 : (l₁ ++ id :: l₂).Nodup := hsplit ▸ hnd
        have heq : l₁ ++ id :: l₂ = l₃ ++ id :: l₄ := by rw [← hsplit, hsplit2]
        obtain ⟨h13, _⟩ := split_unique l₁ l₂ l₃ l₄ id hnd2 heq
        rw [← h13] at ha
        exact hall a ha hae

unseal Rat.add Rat.mul Rat.inv Rat.sub in
/-- C6 witness: the amended statement instantiated on the descending-id
duplicate fixture at the earliest-added document 7 (split [] / [3]). -/
theorem C6_witness :
    7 ∈ (RemoveDuplicates fixtureDup).documents_ ↔
      ∀ a ∈ ([] : List Int), wordSetOf fixtureDup a ≠ wordSetOf fixtureDup 7 :=
  C6_amended fixtureDup 7 [] [3] (by decide) (by decide)
